import Mathlib

/-!
# cron_exporter: the scrape pipeline of `cron_exporter.go`

A shallow embedding of `src/cron_exporter.go`.

* Go strings are lists of characters (`Str`); string literals of the source are
  written `"...".toList`.
* The three shell pipelines the program starts with
  `exec.Command("bash", "-c", cmd).Output()` (user crontab, `CronSchedule.php`,
  the `grep` over the syslog) are one function `bash : Str → Str` from the command
  line to the bytes on standard output; the error result is dropped, as in the
  source (`out, _ := ...`).
  Within one scrape the same command line prints the same output.
* A Go run-time panic (slice bounds, index out of range) is `Except.error`; the
  gauges already written when the panic is raised are not kept in the result.
* The local variable `matches` of `scrape` is `fields` here.
* The gauge vector `cronRunningStatus` is an association list from the six label
  values to the gauge's value; `WithLabelValues(...).Set(v)` is `GaugeVec.set`.
-/

namespace CronExporter

/-- A Go string, as its sequence of characters. -/
abbrev Str := List Char

/-- The run-time panics `scrape` can raise. -/
inductive Panic where
  | sliceBounds
  | indexOutOfRange
  deriving DecidableEq, Repr

/-! ## The Go standard-library functions the program calls -/

/-- Go `unicode.IsSpace`: the characters with the Unicode White_Space property. -/
def isSpace (c : Char) : Bool :=
  let n := c.toNat
  (9 ≤ n && n ≤ 13) || n = 32 || n = 133 || n = 160 || n = 5760 ||
  (8192 ≤ n && n ≤ 8202) || n = 8232 || n = 8233 || n = 8239 || n = 8287 || n = 12288

/-- Go `strings.TrimSpace`: the string without its leading and trailing white space. -/
def TrimSpace (s : Str) : Str :=
  ((s.dropWhile isSpace).reverse.dropWhile isSpace).reverse

/-- Loop of Go `strings.Fields`: `cur` is the field being read, last character first. -/
def FieldsFrom : Str → Str → List Str
  | [], cur => if cur = [] then [] else [cur.reverse]
  | c :: cs, cur =>
    if isSpace c then
      if cur = [] then FieldsFrom cs [] else cur.reverse :: FieldsFrom cs []
    else FieldsFrom cs (c :: cur)

/-- Go `strings.Fields`: the maximal runs of characters that are not white space. -/
def Fields (s : Str) : List Str := FieldsFrom s []

/-- Go `strings.Split(s, sep)` for a separator of one character, which is what every
call of the program passes (`","`, `"|"`, `" "`). The result is never empty. -/
def Split : Str → Char → List Str
  | [], _ => [[]]
  | c :: cs, sep =>
    if c = sep then [] :: Split cs sep
    else
      match Split cs sep with
      | [] => [[c]]
      | piece :: rest => (c :: piece) :: rest

/-- Go `strings.Replace(s, old, new, -1)` for `old` and `new` of one character. -/
def Replace (s : Str) (old new : Char) : Str :=
  s.map (fun c => if c = old then new else c)

/-- Go slice expression `xs[:n]`; panics when `n` exceeds the length (the slices
`strings.Fields` returns have capacity equal to their length). -/
def sliceTo {α : Type} (xs : List α) (n : Nat) : Except Panic (List α) :=
  if n ≤ xs.length then .ok (xs.take n) else .error .sliceBounds

/-- Go slice expression `xs[n:]`; panics when `n` exceeds the length. -/
def sliceFrom {α : Type} (xs : List α) (n : Nat) : Except Panic (List α) :=
  if n ≤ xs.length then .ok (xs.drop n) else .error .sliceBounds

/-- Go index expression `xs[i]` for a signed index; panics outside `0 ≤ i < len(xs)`. -/
def index {α : Type} (xs : List α) (i : Int) : Except Panic α :=
  if i < 0 then .error .indexOutOfRange
  else
    match xs.get? i.toNat with
    | some x => .ok x
    | none => .error .indexOutOfRange

/-! ## Data model -/

/-- The command-line flags the scrape reads and the shell it runs commands in. -/
structure Env where
  cronUsers : Str
  syslogfile : Str
  bash : Str → Str

/-- The six label values of one `cron_status` gauge, in the order of the source. -/
structure Labels where
  user : Str
  pattern : Str
  readable : Str
  command : Str
  nextrun : Str
  previousrun : Str
  deriving DecidableEq, Repr

/-- A `prometheus.GaugeVec`: the gauges created so far, each under its label values. -/
abbrev GaugeVec := List (Labels × Nat)

/-- The value of the gauge with the given label values, if that gauge exists. -/
def GaugeVec.get : GaugeVec → Labels → Option Nat
  | [], _ => none
  | (k, v) :: rest, l => if k = l then some v else GaugeVec.get rest l

/-- The operation `vec.WithLabelValues(l...).Set(x)`: the gauge is created when it does not
exist yet, and set to `x`. No other gauge changes. -/
def GaugeVec.set : GaugeVec → Labels → Nat → GaugeVec
  | [], l, x => [(l, x)]
  | (k, v) :: rest, l, x =>
    if k = l then (k, x) :: rest else (k, v) :: GaugeVec.set rest l x

/-- The `Exporter` struct without its mutex. The gauge `totalCronJobs` holds a
`float64` converted from an `int`; it is a natural number here. -/
structure Exporter where
  CronUser : Str
  totalCronJobs : Nat
  cronRunningStatus : GaugeVec
  deriving DecidableEq, Repr

/-- The constructor `NewCronExporter`: both metrics are new. -/
def NewCronExporter (cronuser : Str) : Exporter :=
  { CronUser := cronuser, totalCronJobs := 0, cronRunningStatus := [] }

/-! ## The scrape -/

/-- The shell command `getCronScheduleFromPHP` builds. -/
def phpcmd (cronString : Str) : Str :=
  "php ./CronSchedule.php ".toList ++ "'".toList ++ cronString ++ "'".toList

/-- The function `getCronScheduleFromPHP`. -/
def getCronScheduleFromPHP (env : Env) (cronString : Str) : Str :=
  env.bash (phpcmd cronString)

/-- The shell command `grepCronLogStatus` builds. -/
def grepcmd (env : Env) (cron_command cron_last_run : Str) : Str :=
  "grep -r CRON ".toList ++ env.syslogfile ++ " | grep '".toList ++ cron_last_run ++ "'".toList
    ++ " | grep '".toList ++ TrimSpace cron_command ++ "'".toList

/-- The function `grepCronLogStatus`. -/
def grepCronLogStatus (env : Env) (cron_command cron_last_run : Str) : Str :=
  let out := env.bash (grepcmd env cron_command cron_last_run)
  if out ≠ [] then "success".toList else "failed".toList

/-- The shell command `scrape` lists a user's schedule with. -/
def crontabCmd (user : Str) : Str :=
  "sudo /usr/bin/crontab -l -u ".toList ++ user
    ++ " | grep -v '^#' | sed 's/^ *//;/^[*@0-9]/!d'".toList

/-- Lines 93 to 101 of `scrape`: the pattern and the command of one schedule line. -/
def splitCron (cron : Str) : Except Panic (Str × Str) := do
  let fields := Fields cron
  let head ← sliceTo fields 5
  let cron_pattern := head.foldl (fun acc val => acc ++ (val ++ " ".toList)) []
  let tail ← sliceFrom fields 5
  let cron_command := tail.foldl (fun acc val1 => acc ++ (val1 ++ " ".toList)) []
  pure (TrimSpace cron_pattern, TrimSpace cron_command)

/-- Lines 109 to 111 of `scrape`: the timestamp the log is searched for. -/
def cronLastRunOf (cronLastRunTime : Str) : Except Panic Str := do
  let cronLastRunSlice := Split cronLastRunTime ' '
  let n : Int := cronLastRunSlice.length
  let a ← index cronLastRunSlice (n - 3)
  let b ← index cronLastRunSlice (n - 2)
  let c ← index cronLastRunSlice (n - 1)
  pure (a ++ "  ".toList ++ b ++ " ".toList ++ c)

/-- What lines 91 to 111 of `scrape` compute for one schedule line. -/
structure CronEntry where
  labels : Labels
  cronLastRun : Str
  deriving DecidableEq, Repr

/-- Lines 91 to 111 of `scrape`: split the line, ask `CronSchedule.php` for the
occurrences of the pattern and take its last three `|`-separated segments. -/
def cronEntry (env : Env) (user cron : Str) : Except Panic CronEntry := do
  let (cron_pattern, cron_command) ← splitCron cron
  let cronruns := getCronScheduleFromPHP env cron_pattern
  let cronrunsSlice := Split cronruns '|'
  let n : Int := cronrunsSlice.length
  let humanReadable ← index cronrunsSlice (n - 3)
  let cronNextRunTime ← index cronrunsSlice (n - 2)
  let cronLastRunTime ← index cronrunsSlice (n - 1)
  let cronLastRun ← cronLastRunOf cronLastRunTime
  pure { labels := { user := user, pattern := cron_pattern, readable := humanReadable,
                     command := cron_command, nextrun := cronNextRunTime,
                     previousrun := cronLastRunTime },
         cronLastRun := cronLastRun }

/-- Lines 113 to 119 of `scrape`: search the log and set the entry's gauge. -/
def recordStatus (env : Env) (en : CronEntry) (vec : GaugeVec) : GaugeVec :=
  let cron_status := grepCronLogStatus env en.labels.command en.cronLastRun
  let vec := if cron_status = "success".toList then vec.set en.labels 1 else vec
  if cron_status = "failed".toList then vec.set en.labels 0 else vec

/-- The body of the loop over `cronSlice` (lines 90 to 120). -/
def cronBody (env : Env) (user cron : Str) (vec : GaugeVec) : Except Panic GaugeVec :=
  if cron ≠ [] then do
    let en ← cronEntry env user cron
    pure (recordStatus env en vec)
  else pure vec

/-- The loop `for _, cron := range cronSlice`. -/
def cronLoop (env : Env) (user : Str) : List Str → GaugeVec → Except Panic GaugeVec
  | [], vec => pure vec
  | cron :: rest, vec => do
    let vec ← cronBody env user cron vec
    cronLoop env user rest vec

/-- Lines 85 to 88 of `scrape`: the pieces the crontab output is cut into. -/
def cronSliceOf (output : Str) : List Str :=
  let crons := TrimSpace output
  let crons := Replace crons '\n' '|'
  Split crons '|'

/-- The body of the loop over the users (lines 81 to 123); the state is the gauge
vector and `total_cron`. -/
def userBody (env : Env) (user : Str) (st : GaugeVec × Nat) : Except Panic (GaugeVec × Nat) :=
  let user := TrimSpace user
  let output := env.bash (crontabCmd user)
  if output ≠ [] then do
    let cronSlice := cronSliceOf output
    let vec ← cronLoop env user cronSlice st.1
    pure (vec, st.2 + cronSlice.length)
  else pure st

/-- The loop `for _, user := range cron_users_list`. -/
def userLoop (env : Env) : List Str → GaugeVec × Nat → Except Panic (GaugeVec × Nat)
  | [], st => pure st
  | user :: rest, st => do
    let st ← userBody env user st
    userLoop env rest st

/-- The method `Exporter.scrape`. `Except.ok` is the return of a nil error. -/
def scrape (env : Env) (e : Exporter) : Except Panic Exporter := do
  let cron_users_list := Split env.cronUsers ','
  let (vec, total_cron) ← userLoop env cron_users_list (e.cronRunningStatus, 0)
  pure { e with totalCronJobs := total_cron, cronRunningStatus := vec }

/-- What one call of `Collect` sends to the channel. -/
structure Exposed where
  total : Nat
  status : GaugeVec
  deriving DecidableEq, Repr

/-- The method `Exporter.Collect`, run alone: it scrapes, then sends the total and every
gauge of the vector. -/
def Collect (env : Env) (e : Exporter) : Except Panic (Exporter × Exposed) := do
  let e ← scrape env e
  pure (e, { total := e.totalCronJobs, status := e.cronRunningStatus })

/-! ## Notions of the specification -/

/-- The tokens joined by single spaces. -/
def joinSp : List Str → Str
  | [] => []
  | [t] => t
  | t :: u :: ts => t ++ ' ' :: joinSp (u :: ts)

/-- A token: not empty, and without white space. -/
def IsToken (t : Str) : Prop := t ≠ [] ∧ ∀ c ∈ t, isSpace c = false

/-- White space only. -/
def IsBlank (s : Str) : Prop := ∀ c ∈ s, isSpace c = true

/-- Neither the first nor the last character is white space. -/
def NoEdgeSpace (s : Str) : Prop :=
  (∀ c, s.head? = some c → isSpace c = false) ∧ (∀ c, s.getLast? = some c → isSpace c = false)

/-- A line laid out freely: white space `lead`, then each token of `parts` followed by its
separating white space, then the token `last` and the white space `trail`. -/
def assemble (lead : Str) (parts : List (Str × Str)) (last trail : Str) : Str :=
  lead ++ ((parts.map (fun p => p.1 ++ p.2)).flatten ++ (last ++ trail))

deriving instance DecidableEq for Except

/-- The gauge value the specification gives an entry: 1 when the log scan for its command and
its previous-run timestamp prints at least one line, 0 otherwise. -/
def statusValue (env : Env) (en : CronEntry) : Nat :=
  if env.bash (grepcmd env en.labels.command en.cronLastRun) ≠ [] then 1 else 0

/-- The gauge value `statusValue` as a function of the label values alone: the timestamp the log
is searched for is computed from the label `previousrun`. -/
def labelValue (env : Env) (l : Labels) : Nat :=
  match cronLastRunOf l.previousrun with
  | .ok lr => if env.bash (grepcmd env l.command lr) ≠ [] then 1 else 0
  | .error _ => 0

/-- The gauge under `l` when the gauges of `new` are laid over those of `old`. -/
def overlay (new old : GaugeVec) (l : Labels) : Option Nat :=
  match new.get l with
  | some v => some v
  | none => old.get l

/-- Output of `CronSchedule.php` that `scrape` can index: at least three `|`-separated segments,
the last of them with at least three parts separated by single blanks. -/
def PhpUsable (out : Str) : Prop :=
  3 ≤ (Split out '|').length ∧
    ∀ last, (Split out '|').getLast? = some last → 3 ≤ (Split last ' ').length

/-- The number `scrape` adds up: for each user with a non-empty crontab output, the number of
pieces of that output, empty pieces included. -/
def pieceCount (env : Env) : List Str → Nat
  | [] => 0
  | u :: rest =>
    (if env.bash (crontabCmd (TrimSpace u)) ≠ [] then
      (cronSliceOf (env.bash (crontabCmd (TrimSpace u)))).length else 0) + pieceCount env rest

/-- The schedule entries a scrape processes: for a configured user with a non-empty crontab
output, the entry of a non-empty piece of that output. -/
def Processed (env : Env) (en : CronEntry) : Prop :=
  ∃ u ∈ Split env.cronUsers ',', env.bash (crontabCmd (TrimSpace u)) ≠ [] ∧
    ∃ cron ∈ cronSliceOf (env.bash (crontabCmd (TrimSpace u))), cron ≠ [] ∧
      cronEntry env (TrimSpace u) cron = .ok en

/-- A shell that answers from a table of command lines, and prints nothing for any other. -/
def shellOf : List (Str × Str) → Str → Str
  | [], _ => []
  | (k, out) :: rest, cmd => if cmd = k then out else shellOf rest cmd

/-! ## Concrete inputs -/

/-- A schedule line with tabs and runs of blanks between its seven tokens. -/
def backupLine : Str := "  */15\t9-17  *   * 1-5 \t /usr/bin/backup.sh   -v ".toList

/-- What `CronSchedule.php` prints for the pattern of the backup job in the examples. -/
def backupRuns : Str := "Every 15 minutes, 9-17, Mon-Fri|Mon Jan 1 10:00|Mon Jan 1 09:45".toList

/-- One user whose crontab is the backup job of the specification's scenario; the log holds a
line of the scheduler for its previous run. -/
def envBackup : Env :=
  { cronUsers := "ubuntu".toList
    syslogfile := "/var/log/syslog".toList
    bash := shellOf
      [ (crontabCmd "ubuntu".toList, "*/15 9-17 * * 1-5 /usr/bin/backup.sh\n".toList),
        (phpcmd "*/15 9-17 * * 1-5".toList, backupRuns),
        ("grep -r CRON /var/log/syslog | grep 'Jan  1 09:45' | grep '/usr/bin/backup.sh'".toList,
          "Jan  1 09:45:01 host CRON[812]: (ubuntu) CMD (/usr/bin/backup.sh)\n".toList) ] }

/-- The exporter after one scrape of `envBackup`. -/
def backupScraped : Exporter :=
  { CronUser := [], totalCronJobs := 1,
    cronRunningStatus :=
      [({ user := "ubuntu".toList, pattern := "*/15 9-17 * * 1-5".toList,
          readable := "Every 15 minutes, 9-17, Mon-Fri".toList,
          command := "/usr/bin/backup.sh".toList,
          nextrun := "Mon Jan 1 10:00".toList, previousrun := "Mon Jan 1 09:45".toList }, 1)] }

/-- The machine of `envBackup` after the backup job was removed from the crontab. -/
def envEmptied : Env :=
  { cronUsers := "ubuntu".toList
    syslogfile := "/var/log/syslog".toList
    bash := shellOf
      [ (phpcmd "*/15 9-17 * * 1-5".toList, backupRuns),
        ("grep -r CRON /var/log/syslog | grep 'Jan  1 09:45' | grep '/usr/bin/backup.sh'".toList,
          "Jan  1 09:45:01 host CRON[812]: (ubuntu) CMD (/usr/bin/backup.sh)\n".toList) ] }

/-- The backup job once more, with `CronSchedule.php` printing nothing. -/
def envNoPhp : Env :=
  { cronUsers := "ubuntu".toList
    syslogfile := "/var/log/syslog".toList
    bash := shellOf
      [ (crontabCmd "ubuntu".toList, "*/15 9-17 * * 1-5 /usr/bin/backup.sh\n".toList) ] }

/-- A crontab whose first line uses a nickname of cron instead of five time fields; the second
line is the backup job of `envBackup`. -/
def envDaily : Env :=
  { cronUsers := "ubuntu".toList
    syslogfile := "/var/log/syslog".toList
    bash := shellOf
      [ (crontabCmd "ubuntu".toList,
          "@daily /usr/bin/rotate.sh\n*/15 9-17 * * 1-5 /usr/bin/backup.sh\n".toList),
        (phpcmd "*/15 9-17 * * 1-5".toList, backupRuns),
        ("grep -r CRON /var/log/syslog | grep 'Jan  1 09:45' | grep '/usr/bin/backup.sh'".toList,
          "Jan  1 09:45:01 host CRON[812]: (ubuntu) CMD (/usr/bin/backup.sh)\n".toList) ] }

/-- A crontab of one line whose command is a shell pipeline. -/
def envPipe : Env :=
  { cronUsers := "ubuntu".toList
    syslogfile := "/var/log/syslog".toList
    bash := shellOf
      [ (crontabCmd "ubuntu".toList, "*/5 * * * * ps aux | grep cron\n".toList),
        (phpcmd "*/5 * * * *".toList, "Every 5 minutes|Mon Jan 1 10:00|Mon Jan 1 09:55".toList) ] }

/-- A crontab of one line whose command text ends in the character `|`. -/
def envTrailingPipe : Env :=
  { cronUsers := "ubuntu".toList
    syslogfile := "/var/log/syslog".toList
    bash := shellOf
      [ (crontabCmd "ubuntu".toList, "0 4 * * * /usr/bin/backup.sh |\n".toList),
        (phpcmd "0 4 * * *".toList, "At 04:00|Tue Jan 2 04:00|Mon Jan 1 04:00".toList) ] }

/-- A machine on which every crontab is the backup job and `CronSchedule.php` always prints
the same three segments, whatever the pattern. -/
def envUniform : Env :=
  { cronUsers := "ubuntu,deploy".toList
    syslogfile := "/var/log/syslog".toList
    bash := fun cmd =>
      if cmd.head? = some 's' then "*/15 9-17 * * 1-5 /usr/bin/backup.sh\n".toList
      else if cmd.head? = some 'p' then backupRuns
      else [] }

/-- The entry of the backup job. -/
def backupEntry : CronEntry :=
  { labels := { user := "ubuntu".toList, pattern := "*/15 9-17 * * 1-5".toList,
                readable := "Every 15 minutes, 9-17, Mon-Fri".toList,
                command := "/usr/bin/backup.sh".toList,
                nextrun := "Mon Jan 1 10:00".toList, previousrun := "Mon Jan 1 09:45".toList },
    cronLastRun := "Jan  1 09:45".toList }

/-! ## Theorems -/

theorem isSpace_blank : isSpace ' ' = true := by decide

theorem FieldsFrom_tokens (s : Str) : ∀ cur : Str, (∀ c ∈ cur, isSpace c = false) →
    ∀ t ∈ FieldsFrom s cur, IsToken t := by
  induction s with
  | nil =>
    intro cur hcur t ht
    by_cases hc : cur = []
    · simp [FieldsFrom, hc] at ht
    · simp only [FieldsFrom, hc, if_false, List.mem_singleton] at ht
      subst ht
      exact ⟨by simpa using hc, fun c hcm => hcur c (by simpa using hcm)⟩
  | cons c cs ih =>
    intro cur hcur t ht
    by_cases hs : isSpace c = true
    · by_cases hc : cur = []
      · simp only [FieldsFrom, hs, hc, if_true] at ht
        exact ih [] (by simp) t ht
      · simp only [FieldsFrom, hs, hc, if_true, if_false, List.mem_cons] at ht
        rcases ht with ht | ht
        · subst ht
          exact ⟨by simpa using hc, fun c hcm => hcur c (by simpa using hcm)⟩
        · exact ih [] (by simp) t ht
    · simp only [FieldsFrom, hs] at ht
      refine ih (c :: cur) ?_ t ht
      intro d hd
      rcases List.mem_cons.1 hd with hd | hd
      · subst hd; simpa using hs
      · exact hcur d hd

theorem Fields_tokens (s : Str) : ∀ t ∈ Fields s, IsToken t :=
  FieldsFrom_tokens s [] (by simp)

theorem foldl_append_sp (ts : List Str) : ∀ init : Str,
    ts.foldl (fun acc val => acc ++ (val ++ " ".toList)) init
      = init ++ (ts.map (fun t => t ++ [' '])).flatten := by
  induction ts with
  | nil => intro init; simp
  | cons t ts ih =>
    intro init
    simp only [List.foldl_cons, ih, List.map_cons, List.flatten_cons]
    have : " ".toList = [' '] := rfl
    simp [this]

theorem flatten_sp_eq_joinSp (ts : List Str) (h : ts ≠ []) :
    (ts.map (fun t => t ++ [' '])).flatten = joinSp ts ++ [' '] := by
  induction ts with
  | nil => exact absurd rfl h
  | cons t ts ih =>
    cases ts with
    | nil => simp [joinSp]
    | cons u us =>
      have := ih (by simp)
      simp only [List.map_cons, List.flatten_cons] at this ⊢
      rw [this]
      simp [joinSp]

theorem joinSp_noEdge (ts : List Str) (h : ∀ t ∈ ts, IsToken t) : NoEdgeSpace (joinSp ts) := by
  induction ts with
  | nil => simp [joinSp, NoEdgeSpace]
  | cons t ts ih =>
    have ht := h t (by simp)
    cases ts with
    | nil =>
      obtain ⟨hne, hsp⟩ := ht
      refine ⟨fun c hc => hsp c ?_, fun c hc => hsp c ?_⟩
      · exact List.mem_of_mem_head? (by simpa [joinSp] using hc)
      · exact List.mem_of_mem_getLast? (by simpa [joinSp] using hc)
    | cons u us =>
      have ih' := ih (fun x hx => h x (List.mem_cons_of_mem _ hx))
      obtain ⟨hne, hsp⟩ := ht
      have hu := h u (by simp)
      have hjne : joinSp (u :: us) ≠ [] := by
        cases us with
        | nil => simpa [joinSp] using hu.1
        | cons v vs => simp [joinSp]
      refine ⟨fun c hc => ?_, fun c hc => ?_⟩
      · cases t with
        | nil => exact absurd rfl hne
        | cons d ds =>
          simp only [joinSp, List.cons_append, List.head?_cons, Option.some.injEq] at hc
          subst hc
          exact hsp _ (by simp)
      · apply ih'.2 c
        simp only [joinSp] at hc
        rw [List.getLast?_append_of_ne_nil _ (by simp)] at hc
        obtain ⟨d, w, hw⟩ := List.exists_cons_of_ne_nil hjne
        rw [hw] at hc ⊢
        simpa [List.getLast?_cons_cons] using hc

theorem TrimSpace_append_sp (w : Str) (h : NoEdgeSpace w) : TrimSpace (w ++ [' ']) = w := by
  cases w with
  | nil => decide
  | cons c w =>
    have hc : isSpace c = false := h.1 c rfl
    have h1 : List.dropWhile isSpace (c :: w ++ [' ']) = c :: w ++ [' '] := by
      simp [List.dropWhile, hc]
    have h2 : (c :: w ++ [' ']).reverse = ' ' :: (c :: w).reverse := by simp
    obtain ⟨d, r, hr⟩ := List.exists_cons_of_ne_nil (show (c :: w).reverse ≠ [] by simp)
    have hd : isSpace d = false := by
      apply h.2 d
      rw [← List.head?_reverse, hr]
      rfl
    unfold TrimSpace
    rw [h1, h2, hr]
    have h3 : List.dropWhile isSpace (' ' :: d :: r) = d :: r := by
      simp [List.dropWhile, hd, isSpace_blank]
    rw [h3, ← hr]
    simp

theorem TrimSpace_foldl (ts : List Str) (h : ∀ t ∈ ts, IsToken t) :
    TrimSpace (ts.foldl (fun acc val => acc ++ (val ++ " ".toList)) []) = joinSp ts := by
  rw [foldl_append_sp]
  by_cases hts : ts = []
  · subst hts; decide
  · rw [flatten_sp_eq_joinSp ts hts, List.nil_append]
    exact TrimSpace_append_sp _ (joinSp_noEdge ts h)

theorem splitCron_eq (cron : Str) (h : 5 ≤ (Fields cron).length) :
    splitCron cron = .ok (joinSp ((Fields cron).take 5), joinSp ((Fields cron).drop 5)) := by
  have htok := Fields_tokens cron
  have h1 := TrimSpace_foldl ((Fields cron).take 5) (fun t ht => htok t (List.mem_of_mem_take ht))
  have h2 := TrimSpace_foldl ((Fields cron).drop 5) (fun t ht => htok t (List.mem_of_mem_drop ht))
  simp only [splitCron, sliceTo, sliceFrom, h, if_true, bind, Except.bind, pure, Except.pure,
    h1, h2]

theorem FieldsFrom_cons_space (c : Char) (cs cur : Str) (hc : isSpace c = true) :
    FieldsFrom (c :: cs) cur
      = if cur = [] then FieldsFrom cs [] else cur.reverse :: FieldsFrom cs [] := by
  simp [FieldsFrom, hc]

theorem FieldsFrom_cons_nonspace (c : Char) (cs cur : Str) (hc : isSpace c = false) :
    FieldsFrom (c :: cs) cur = FieldsFrom cs (c :: cur) := by
  simp [FieldsFrom, hc]

theorem FieldsFrom_blank (ws s : Str) (h : IsBlank ws) :
    FieldsFrom (ws ++ s) [] = FieldsFrom s [] := by
  induction ws with
  | nil => rfl
  | cons c ws ih =>
    have hc : isSpace c = true := h c (by simp)
    rw [List.cons_append, FieldsFrom_cons_space _ _ _ hc, if_pos rfl]
    exact ih (fun d hd => h d (List.mem_cons_of_mem _ hd))

theorem FieldsFrom_nonblank (t s : Str) (h : ∀ c ∈ t, isSpace c = false) :
    ∀ cur : Str, FieldsFrom (t ++ s) cur = FieldsFrom s (t.reverse ++ cur) := by
  induction t with
  | nil => intro cur; rfl
  | cons c t ih =>
    intro cur
    have hc : isSpace c = false := h c (by simp)
    rw [List.cons_append, FieldsFrom_cons_nonspace _ _ _ hc,
      ih (fun d hd => h d (List.mem_cons_of_mem _ hd))]
    simp

theorem FieldsFrom_token_sep (t sep s : Str) (ht : IsToken t) (hsep : IsBlank sep)
    (hne : sep ≠ []) : FieldsFrom (t ++ (sep ++ s)) [] = t :: FieldsFrom s [] := by
  rw [FieldsFrom_nonblank t _ ht.2]
  obtain ⟨d, sep', rfl⟩ := List.exists_cons_of_ne_nil hne
  have hd : isSpace d = true := hsep d (by simp)
  have hcur : t.reverse ++ [] ≠ [] := by simpa using ht.1
  rw [List.cons_append, FieldsFrom_cons_space _ _ _ hd, if_neg hcur,
    FieldsFrom_blank sep' s (fun c hc => hsep c (List.mem_cons_of_mem _ hc))]
  simp

theorem FieldsFrom_token_end (t trail : Str) (ht : IsToken t) (htrail : IsBlank trail) :
    FieldsFrom (t ++ trail) [] = [t] := by
  rw [FieldsFrom_nonblank t _ ht.2]
  have hcur : t.reverse ++ [] ≠ [] := by simpa using ht.1
  cases trail with
  | nil => simp [FieldsFrom, ht.1]
  | cons d trail =>
    have hd : isSpace d = true := htrail d (by simp)
    rw [FieldsFrom_cons_space _ _ _ hd, if_neg hcur]
    have := FieldsFrom_blank trail [] (fun c hc => htrail c (List.mem_cons_of_mem _ hc))
    rw [List.append_nil] at this
    rw [this]
    simp [FieldsFrom]

/-- The tokens of an assembled line are the tokens it was assembled from, whatever white space
stands before, between and after them. -/
theorem Fields_assemble (lead : Str) (parts : List (Str × Str)) (last trail : Str)
    (hlead : IsBlank lead) (hparts : ∀ p ∈ parts, IsToken p.1 ∧ IsBlank p.2 ∧ p.2 ≠ [])
    (hlast : IsToken last) (htrail : IsBlank trail) :
    Fields (assemble lead parts last trail) = parts.map Prod.fst ++ [last] := by
  unfold Fields assemble
  rw [FieldsFrom_blank lead _ hlead]
  induction parts with
  | nil => simpa using FieldsFrom_token_end last trail hlast htrail
  | cons p ps ih =>
    obtain ⟨h1, h2, h3⟩ := hparts p (by simp)
    simp only [List.map_cons, List.flatten_cons, List.append_assoc, List.cons_append]
    rw [FieldsFrom_token_sep p.1 p.2 _ h1 h2 h3]
    rw [ih (fun q hq => hparts q (List.mem_cons_of_mem _ hq))]

/-! ### The gauge vector -/

theorem GaugeVec.get_set_self (vec : GaugeVec) (l : Labels) (x : Nat) :
    (vec.set l x).get l = some x := by
  induction vec with
  | nil => simp [GaugeVec.set, GaugeVec.get]
  | cons p rest ih =>
    obtain ⟨k, v⟩ := p
    by_cases hk : k = l
    · simp [GaugeVec.set, GaugeVec.get, hk]
    · simp [GaugeVec.set, GaugeVec.get, hk, ih]

theorem GaugeVec.get_set_other (vec : GaugeVec) (l l' : Labels) (x : Nat) (h : l' ≠ l) :
    (vec.set l x).get l' = vec.get l' := by
  induction vec with
  | nil =>
    have : ¬ l = l' := fun e => h e.symm
    simp [GaugeVec.set, GaugeVec.get, this]
  | cons p rest ih =>
    obtain ⟨k, v⟩ := p
    by_cases hk : k = l
    · subst hk
      have : ¬ k = l' := fun e => h e.symm
      simp [GaugeVec.set, GaugeVec.get, this]
    · by_cases hk' : k = l'
      · subst hk'
        simp [GaugeVec.set, GaugeVec.get, hk]
      · simp [GaugeVec.set, GaugeVec.get, hk, hk', ih]

/-! ### The status of an entry -/

theorem grepCronLogStatus_eq (env : Env) (cmd lr : Str) :
    grepCronLogStatus env cmd lr
      = if env.bash (grepcmd env cmd lr) ≠ [] then "success".toList else "failed".toList := rfl

theorem recordStatus_eq (env : Env) (en : CronEntry) (vec : GaugeVec) :
    recordStatus env en vec = vec.set en.labels (statusValue env en) := by
  unfold recordStatus statusValue
  rw [grepCronLogStatus_eq]
  by_cases h : env.bash (grepcmd env en.labels.command en.cronLastRun) = []
  · have hne : ¬ ("failed".toList = "success".toList) := by decide
    simp [h, hne]
  · have hne : ¬ ("success".toList = "failed".toList) := by decide
    simp [h, hne]

theorem cronBody_nil (env : Env) (user : Str) (vec : GaugeVec) :
    cronBody env user [] vec = .ok vec := rfl

theorem cronBody_ok (env : Env) (user cron : Str) (vec : GaugeVec) (en : CronEntry)
    (hne : cron ≠ []) (h : cronEntry env user cron = .ok en) :
    cronBody env user cron vec = .ok (vec.set en.labels (statusValue env en)) := by
  simp [cronBody, hne, h, bind, Except.bind, pure, Except.pure, recordStatus_eq]

theorem cronBody_error (env : Env) (user cron : Str) (vec : GaugeVec) (p : Panic)
    (hne : cron ≠ []) (h : cronEntry env user cron = .error p) :
    cronBody env user cron vec = .error p := by
  simp [cronBody, hne, h, bind, Except.bind]

theorem cronLoop_nil (env : Env) (user : Str) (vec : GaugeVec) :
    cronLoop env user [] vec = .ok vec := rfl

theorem cronLoop_cons (env : Env) (user cron : Str) (rest : List Str) (vec : GaugeVec) :
    cronLoop env user (cron :: rest) vec
      = (cronBody env user cron vec).bind (fun vec1 => cronLoop env user rest vec1) := rfl

theorem userLoop_nil (env : Env) (st : GaugeVec × Nat) : userLoop env [] st = .ok st := rfl

theorem userLoop_cons (env : Env) (user : Str) (rest : List Str) (st : GaugeVec × Nat) :
    userLoop env (user :: rest) st
      = (userBody env user st).bind (fun st1 => userLoop env rest st1) := rfl

theorem userBody_empty (env : Env) (user : Str) (st : GaugeVec × Nat)
    (h : env.bash (crontabCmd (TrimSpace user)) = []) : userBody env user st = .ok st := by
  simp [userBody, h, pure, Except.pure]

theorem userBody_nonempty (env : Env) (user : Str) (st : GaugeVec × Nat)
    (h : env.bash (crontabCmd (TrimSpace user)) ≠ []) :
    userBody env user st
      = (cronLoop env (TrimSpace user) (cronSliceOf (env.bash (crontabCmd (TrimSpace user))))
          st.1).bind
          (fun vec => .ok (vec, st.2 + (cronSliceOf (env.bash (crontabCmd (TrimSpace user)))).length))
      := by
  simp [userBody, h, bind, pure, Except.pure]

theorem scrape_eq (env : Env) (e : Exporter) :
    scrape env e
      = (userLoop env (Split env.cronUsers ',') (e.cronRunningStatus, 0)).bind
          (fun st => .ok { e with totalCronJobs := st.2, cronRunningStatus := st.1 }) := by
  unfold scrape
  simp only [bind, pure, Except.pure]

theorem Except.bind_eq_ok {ε α β : Type} (x : Except ε α) (f : α → Except ε β) (b : β)
    (h : x.bind f = .ok b) : ∃ a, x = .ok a ∧ f a = .ok b := by
  cases x with
  | error p => cases h
  | ok a => exact ⟨a, rfl, h⟩

theorem cronEntry_lastRun (env : Env) (user cron : Str) (en : CronEntry)
    (h : cronEntry env user cron = .ok en) :
    cronLastRunOf en.labels.previousrun = .ok en.cronLastRun := by
  unfold cronEntry at h
  obtain ⟨⟨pat, cmd⟩, _, h⟩ := Except.bind_eq_ok _ _ _ h
  obtain ⟨hr, _, h⟩ := Except.bind_eq_ok _ _ _ h
  obtain ⟨nx, _, h⟩ := Except.bind_eq_ok _ _ _ h
  obtain ⟨lt, _, h⟩ := Except.bind_eq_ok _ _ _ h
  obtain ⟨lr, hlr, h⟩ := Except.bind_eq_ok _ _ _ h
  cases h
  exact hlr

theorem statusValue_eq_labelValue (env : Env) (user cron : Str) (en : CronEntry)
    (h : cronEntry env user cron = .ok en) : statusValue env en = labelValue env en.labels := by
  unfold labelValue statusValue
  rw [cronEntry_lastRun env user cron en h]

theorem cronBody_step (env : Env) (user cron : Str) (vec vec1 : GaugeVec)
    (h : cronBody env user cron vec = .ok vec1) :
    (cron = [] ∧ vec1 = vec) ∨
      (cron ≠ [] ∧ ∃ en, cronEntry env user cron = .ok en ∧
        vec1 = vec.set en.labels (statusValue env en)) := by
  by_cases hne : cron = []
  · subst hne
    rw [cronBody_nil] at h
    cases h
    exact Or.inl ⟨rfl, rfl⟩
  · cases he : cronEntry env user cron with
    | error p =>
      rw [cronBody_error env user cron vec p hne he] at h
      cases h
    | ok en =>
      rw [cronBody_ok env user cron vec en hne he] at h
      cases h
      exact Or.inr ⟨hne, en, rfl, rfl⟩

theorem userBody_step (env : Env) (user : Str) (st st1 : GaugeVec × Nat)
    (h : userBody env user st = .ok st1) :
    (env.bash (crontabCmd (TrimSpace user)) = [] ∧ st1 = st) ∨
      (env.bash (crontabCmd (TrimSpace user)) ≠ [] ∧
        ∃ vec, cronLoop env (TrimSpace user)
            (cronSliceOf (env.bash (crontabCmd (TrimSpace user)))) st.1 = .ok vec ∧
          st1 = (vec, st.2 + (cronSliceOf (env.bash (crontabCmd (TrimSpace user)))).length)) := by
  by_cases hne : env.bash (crontabCmd (TrimSpace user)) = []
  · rw [userBody_empty env user st hne] at h
    cases h
    exact Or.inl ⟨hne, rfl⟩
  · rw [userBody_nonempty env user st hne] at h
    obtain ⟨vec, hvec, h⟩ := Except.bind_eq_ok _ _ _ h
    cases h
    exact Or.inr ⟨hne, vec, hvec, rfl⟩

theorem cronLoop_status (env : Env) (user : Str) (crons : List Str) :
    ∀ vec vec1 : GaugeVec, cronLoop env user crons vec = .ok vec1 →
      (∀ l, vec1.get l = vec.get l ∨ vec1.get l = some (labelValue env l)) ∧
      (∀ cron ∈ crons, cron ≠ [] → ∀ en, cronEntry env user cron = .ok en →
        vec1.get en.labels = some (labelValue env en.labels)) := by
  induction crons with
  | nil =>
    intro vec vec1 h
    rw [cronLoop_nil] at h
    cases h
    exact ⟨fun l => Or.inl rfl, fun cron hc => by simp at hc⟩
  | cons c rest ih =>
    intro vec vec1 h
    rw [cronLoop_cons] at h
    obtain ⟨vec0, hbody, hrest⟩ := Except.bind_eq_ok _ _ _ h
    obtain ⟨hkeep, hdone⟩ := ih vec0 vec1 hrest
    have hstep : ∀ l, vec0.get l = vec.get l ∨ vec0.get l = some (labelValue env l) := by
      intro l
      rcases cronBody_step env user c vec vec0 hbody with ⟨_, h0⟩ | ⟨_, en, hen, h0⟩
      · exact Or.inl (by rw [h0])
      · rw [h0, statusValue_eq_labelValue env user c en hen]
        by_cases hl : l = en.labels
        · subst hl
          exact Or.inr (GaugeVec.get_set_self _ _ _)
        · exact Or.inl (GaugeVec.get_set_other _ _ _ _ hl)
    refine ⟨fun l => ?_, fun cron hc hne en hen => ?_⟩
    · rcases hkeep l with h1 | h1
      · rcases hstep l with h2 | h2
        · exact Or.inl (h1.trans h2)
        · exact Or.inr (h1.trans h2)
      · exact Or.inr h1
    · rcases List.mem_cons.1 hc with hc | hc
      · subst hc
        rcases cronBody_step env user cron vec vec0 hbody with ⟨h0, _⟩ | ⟨_, en0, hen0, h0⟩
        · exact absurd h0 hne
        · rw [hen] at hen0
          cases hen0
          rcases hkeep en.labels with h1 | h1
          · rw [h1, h0, statusValue_eq_labelValue env user cron en hen]
            exact GaugeVec.get_set_self _ _ _
          · exact h1
      · exact hdone cron hc hne en hen

theorem userLoop_status (env : Env) (users : List Str) :
    ∀ st st1 : GaugeVec × Nat, userLoop env users st = .ok st1 →
      (∀ l, st1.1.get l = st.1.get l ∨ st1.1.get l = some (labelValue env l)) ∧
      (∀ u ∈ users, env.bash (crontabCmd (TrimSpace u)) ≠ [] →
        ∀ cron ∈ cronSliceOf (env.bash (crontabCmd (TrimSpace u))), cron ≠ [] →
          ∀ en, cronEntry env (TrimSpace u) cron = .ok en →
            st1.1.get en.labels = some (labelValue env en.labels)) := by
  induction users with
  | nil =>
    intro st st1 h
    rw [userLoop_nil] at h
    cases h
    exact ⟨fun l => Or.inl rfl, fun u hu => by simp at hu⟩
  | cons u rest ih =>
    intro st st1 h
    rw [userLoop_cons] at h
    obtain ⟨st0, hbody, hrest⟩ := Except.bind_eq_ok _ _ _ h
    obtain ⟨hkeep, hdone⟩ := ih st0 st1 hrest
    refine ⟨fun l => ?_, fun w hw hout cron hc hne en hen => ?_⟩
    · rcases userBody_step env u st st0 hbody with ⟨_, h0⟩ | ⟨_, vec, hvec, h0⟩
      · rw [h0] at hkeep
        exact hkeep l
      · have h2 := (cronLoop_status env _ _ st.1 vec hvec).1 l
        rw [h0] at hkeep
        rcases hkeep l with h1 | h1
        · rcases h2 with h2 | h2
          · exact Or.inl (h1.trans h2)
          · exact Or.inr (h1.trans h2)
        · exact Or.inr h1
    · rcases List.mem_cons.1 hw with hw | hw
      · subst hw
        rcases userBody_step env w st st0 hbody with ⟨h0, _⟩ | ⟨_, vec, hvec, h0⟩
        · exact absurd h0 hout
        · have h2 := (cronLoop_status env _ _ st.1 vec hvec).2 cron hc hne en hen
          rw [h0] at hkeep
          rcases hkeep en.labels with h1 | h1
          · exact h1.trans h2
          · exact h1
      · exact hdone w hw hout cron hc hne en hen

/-- C3. After a scrape, the `cron_status` gauge under the labels of every schedule entry the
scrape processed is 1 if the log scan for the entry's trimmed command and previous-run timestamp
printed something, and 0 otherwise; an empty scan result gives 0; and `grepCronLogStatus`
returns "success" or "failed" and nothing else, "success" exactly when the scan result is not
empty. -/
theorem scrape_status_value (env : Env) (e e1 : Exporter) (h : scrape env e = .ok e1) :
    (∀ en, Processed env en →
        e1.cronRunningStatus.get en.labels = some (statusValue env en) ∧
        (env.bash (grepcmd env en.labels.command en.cronLastRun) ≠ [] → statusValue env en = 1) ∧
        (env.bash (grepcmd env en.labels.command en.cronLastRun) = [] → statusValue env en = 0)) ∧
      (∀ cmd lr, (env.bash (grepcmd env cmd lr) ≠ [] →
          grepCronLogStatus env cmd lr = "success".toList) ∧
        (env.bash (grepcmd env cmd lr) = [] → grepCronLogStatus env cmd lr = "failed".toList)) := by
  rw [scrape_eq] at h
  obtain ⟨st, hloop, h⟩ := Except.bind_eq_ok _ _ _ h
  cases h
  refine ⟨fun en hen => ⟨?_, ?_, ?_⟩, fun cmd lr => ⟨?_, ?_⟩⟩
  · obtain ⟨u, hu, hout, cron, hc, hne, hentry⟩ := hen
    rw [statusValue_eq_labelValue env _ cron en hentry]
    exact (userLoop_status env _ _ st hloop).2 u hu hout cron hc hne en hentry
  · intro hs
    simp [statusValue, hs]
  · intro hs
    simp [statusValue, hs]
  · intro hs
    simp [grepCronLogStatus_eq, hs]
  · intro hs
    simp [grepCronLogStatus_eq, hs]

theorem scrape_status_value_witness :
    scrape envBackup (NewCronExporter []) = .ok backupScraped ∧ Processed envBackup backupEntry ∧
      backupScraped.cronRunningStatus.get backupEntry.labels = some 1 := by
  have h : scrape envBackup (NewCronExporter []) = .ok backupScraped := by decide
  have hp : Processed envBackup backupEntry :=
    ⟨"ubuntu".toList, by decide, by decide, "*/15 9-17 * * 1-5 /usr/bin/backup.sh".toList,
      by decide, by decide, by decide⟩
  have hv := ((scrape_status_value envBackup _ _ h).1 backupEntry hp).1
  exact ⟨h, hp, hv.trans (by decide)⟩

/-! ### A user without a schedule -/

theorem cronLoop_env (cu cu1 s : Str) (b : Str → Str) (user : Str) (crons : List Str) :
    ∀ vec, cronLoop ⟨cu, s, b⟩ user crons vec = cronLoop ⟨cu1, s, b⟩ user crons vec := by
  induction crons with
  | nil => intro vec; rfl
  | cons c rest ih =>
    intro vec
    rw [cronLoop_cons, cronLoop_cons]
    have hb : cronBody ⟨cu, s, b⟩ user c vec = cronBody ⟨cu1, s, b⟩ user c vec := rfl
    rw [hb]
    congr 1
    funext vec1
    exact ih vec1

theorem userBody_env (cu cu1 s : Str) (b : Str → Str) (user : Str) (st : GaugeVec × Nat) :
    userBody ⟨cu, s, b⟩ user st = userBody ⟨cu1, s, b⟩ user st := by
  unfold userBody
  simp only [cronLoop_env cu cu1 s b]

theorem userLoop_env (cu cu1 s : Str) (b : Str → Str) (users : List Str) :
    ∀ st, userLoop ⟨cu, s, b⟩ users st = userLoop ⟨cu1, s, b⟩ users st := by
  induction users with
  | nil => intro st; rfl
  | cons u rest ih =>
    intro st
    rw [userLoop_cons, userLoop_cons, userBody_env cu cu1 s b]
    congr 1
    funext st1
    exact ih st1

theorem userLoop_append (env : Env) (us1 us2 : List Str) :
    ∀ st, userLoop env (us1 ++ us2) st
      = (userLoop env us1 st).bind (fun st1 => userLoop env us2 st1) := by
  induction us1 with
  | nil => intro st; rfl
  | cons u rest ih =>
    intro st
    rw [List.cons_append, userLoop_cons, userLoop_cons]
    cases userBody env u st with
    | error p => rfl
    | ok st0 => exact ih st0

/-- C7. A configured user whose schedule enumeration prints nothing is skipped: the body of the
loop over the users leaves the gauges and the running total as they are, and the scrape gives
the result it gives for the list of users without that user. -/
theorem scrape_skips_empty_user (env env1 : Env) (us1 us2 : List Str) (u : Str) (e : Exporter)
    (hbash : env1.bash = env.bash) (hlog : env1.syslogfile = env.syslogfile)
    (h : Split env.cronUsers ',' = us1 ++ u :: us2)
    (h1 : Split env1.cronUsers ',' = us1 ++ us2)
    (hempty : env.bash (crontabCmd (TrimSpace u)) = []) :
    (∀ st, userBody env u st = .ok st) ∧ scrape env e = scrape env1 e := by
  refine ⟨fun st => userBody_empty env u st hempty, ?_⟩
  obtain ⟨cu, s, b⟩ := env
  obtain ⟨cu1, s1, b1⟩ := env1
  simp only at hbash hlog h h1 hempty
  subst hbash hlog
  rw [scrape_eq, scrape_eq]
  simp only
  have hskip : (fun st1 => userLoop ⟨cu, s1, b1⟩ (u :: us2) st1)
      = (fun st1 => userLoop ⟨cu, s1, b1⟩ us2 st1) := by
    funext st1
    rw [userLoop_cons, userBody_empty _ u _ hempty]
    rfl
  rw [h, h1, userLoop_env cu1 cu s1 b1, userLoop_append, userLoop_append, hskip]

theorem scrape_skips_empty_user_witness :
    envBackup.bash (crontabCmd (TrimSpace "ghost".toList)) = [] ∧
      scrape { envBackup with cronUsers := "ubuntu,ghost".toList } (NewCronExporter [])
        = scrape envBackup (NewCronExporter []) :=
  ⟨by decide,
    (scrape_skips_empty_user { envBackup with cronUsers := "ubuntu,ghost".toList } envBackup
      ["ubuntu".toList] [] "ghost".toList (NewCronExporter []) rfl rfl (by decide) (by decide)
      (by decide)).2⟩

/-! ### Gauges of earlier scrapes -/

theorem overlay_nil (base : GaugeVec) (l : Labels) : overlay [] base l = base.get l := rfl

theorem overlay_set (base a b : GaugeVec) (k : Labels) (x : Nat)
    (h : ∀ l, a.get l = overlay b base l) :
    ∀ l, (a.set k x).get l = overlay (b.set k x) base l := by
  intro l
  by_cases hl : l = k
  · subst hl
    simp [overlay, GaugeVec.get_set_self]
  · simp only [overlay, GaugeVec.get_set_other _ _ _ _ hl]
    exact h l

theorem cronLoop_overlay (env : Env) (user : Str) (base : GaugeVec) (crons : List Str) :
    ∀ a b a1 : GaugeVec, (∀ l, a.get l = overlay b base l) →
      cronLoop env user crons a = .ok a1 →
      ∃ b1, cronLoop env user crons b = .ok b1 ∧ ∀ l, a1.get l = overlay b1 base l := by
  induction crons with
  | nil =>
    intro a b a1 hab h
    rw [cronLoop_nil] at h
    cases h
    exact ⟨b, rfl, hab⟩
  | cons c rest ih =>
    intro a b a1 hab h
    rw [cronLoop_cons] at h
    obtain ⟨a0, hbody, hrest⟩ := Except.bind_eq_ok _ _ _ h
    rcases cronBody_step env user c a a0 hbody with ⟨hc, h0⟩ | ⟨hc, en, hen, h0⟩
    · subst hc h0
      obtain ⟨b1, hb1, hov⟩ := ih a0 b a1 hab hrest
      exact ⟨b1, by rw [cronLoop_cons, cronBody_nil]; exact hb1, hov⟩
    · subst h0
      obtain ⟨b1, hb1, hov⟩ := ih _ (b.set en.labels (statusValue env en)) a1
        (overlay_set base a b _ _ hab) hrest
      exact ⟨b1, by rw [cronLoop_cons, cronBody_ok env user c b en hc hen]; exact hb1, hov⟩

theorem userLoop_overlay (env : Env) (base : GaugeVec) (users : List Str) :
    ∀ (a b : GaugeVec) (n : Nat) (st1 : GaugeVec × Nat), (∀ l, a.get l = overlay b base l) →
      userLoop env users (a, n) = .ok st1 →
      ∃ b1, userLoop env users (b, n) = .ok (b1, st1.2) ∧ ∀ l, st1.1.get l = overlay b1 base l := by
  induction users with
  | nil =>
    intro a b n st1 hab h
    rw [userLoop_nil] at h
    cases h
    exact ⟨b, rfl, hab⟩
  | cons u rest ih =>
    intro a b n st1 hab h
    rw [userLoop_cons] at h
    obtain ⟨st0, hbody, hrest⟩ := Except.bind_eq_ok _ _ _ h
    rcases userBody_step env u (a, n) st0 hbody with ⟨hout, h0⟩ | ⟨hout, vec, hvec, h0⟩
    · subst h0
      obtain ⟨b1, hb1, hov⟩ := ih a b n st1 hab hrest
      exact ⟨b1, by rw [userLoop_cons, userBody_empty env u _ hout]; exact hb1, hov⟩
    · subst h0
      obtain ⟨vecb, hvecb, hov0⟩ := cronLoop_overlay env _ base _ a b vec hab hvec
      obtain ⟨b1, hb1, hov⟩ := ih vec vecb _ st1 hov0 hrest
      refine ⟨b1, ?_, hov⟩
      rw [userLoop_cons, userBody_nonempty env u _ hout]
      simp only at hvecb ⊢
      rw [hvecb]
      exact hb1

theorem scrape_overlay (env : Env) (e e1 : Exporter) (h : scrape env e = .ok e1) :
    ∃ e0, scrape env (NewCronExporter e.CronUser) = .ok e0 ∧
      e1.totalCronJobs = e0.totalCronJobs ∧
      ∀ l, e1.cronRunningStatus.get l
        = overlay e0.cronRunningStatus e.cronRunningStatus l := by
  rw [scrape_eq] at h
  obtain ⟨st, hloop, h⟩ := Except.bind_eq_ok _ _ _ h
  cases h
  obtain ⟨b1, hb1, hov⟩ := userLoop_overlay env e.cronRunningStatus _ e.cronRunningStatus [] 0 st
    (fun l => (overlay_nil _ l).symm) hloop
  refine ⟨{ CronUser := e.CronUser, totalCronJobs := st.2, cronRunningStatus := b1 }, ?_, rfl,
    hov⟩
  rw [scrape_eq]
  show (userLoop env (Split env.cronUsers ',') ([], 0)).bind _ = _
  rw [hb1]
  rfl

/-- C8, as the code has it. The gauges of earlier scrapes stay: what `Collect` exposes after a
scrape that completes is the set of records computed in that scrape (the records a new exporter
exposes after the same scrape) laid over the records the exporter held before. A record of this
scrape is exposed with its new value; every earlier record under other labels is exposed
unchanged. The total is that of this scrape alone. -/
theorem Collect_overlays_earlier (env : Env) (e e1 : Exporter) (out : Exposed)
    (h : Collect env e = .ok (e1, out)) :
    ∃ e0 out0, Collect env (NewCronExporter e.CronUser) = .ok (e0, out0) ∧
      out.total = out0.total ∧
      ∀ l, out.status.get l = overlay out0.status e.cronRunningStatus l := by
  unfold Collect at h
  obtain ⟨e2, hs, h⟩ := Except.bind_eq_ok _ _ _ h
  simp only [pure, Except.pure, Except.ok.injEq, Prod.mk.injEq] at h
  obtain ⟨_, hout⟩ := h
  rw [← hout]
  obtain ⟨e0, hs0, htot, hov⟩ := scrape_overlay env e e2 hs
  refine ⟨e0, ⟨e0.totalCronJobs, e0.cronRunningStatus⟩, ?_, htot, hov⟩
  unfold Collect
  simp only [bind, Except.bind, hs0, pure, Except.pure]

theorem Collect_overlays_earlier_witness :
    Collect envEmptied backupScraped
        = .ok ({ backupScraped with totalCronJobs := 0 }, ⟨0, backupScraped.cronRunningStatus⟩) ∧
      ∃ e0 out0, Collect envEmptied (NewCronExporter []) = .ok (e0, out0) ∧
        (0 : Nat) = out0.total ∧
        ∀ l, backupScraped.cronRunningStatus.get l
          = overlay out0.status backupScraped.cronRunningStatus l :=
  ⟨by decide, Collect_overlays_earlier envEmptied backupScraped
    { backupScraped with totalCronJobs := 0 } ⟨0, backupScraped.cronRunningStatus⟩ (by decide)⟩

/-- C8 fails as stated. The first request scrapes the backup job and exposes its record. The job
is then removed from the crontab. The second request scrapes nothing (a new exporter would
expose no record and no entry is processed), and still exposes the record of the first. -/
theorem stale_record_still_exposed :
    Collect envBackup (NewCronExporter [])
        = .ok (backupScraped, ⟨1, [(backupEntry.labels, 1)]⟩) ∧
      Collect envEmptied backupScraped
        = .ok ({ backupScraped with totalCronJobs := 0 }, ⟨0, [(backupEntry.labels, 1)]⟩) ∧
      Collect envEmptied (NewCronExporter []) = .ok (NewCronExporter [], ⟨0, []⟩) ∧
      ∀ en, ¬ Processed envEmptied en := by
  refine ⟨by decide, by decide, by decide, ?_⟩
  rintro en ⟨u, hu, hout, _⟩
  have hu1 : u = "ubuntu".toList := by
    have hs : Split envEmptied.cronUsers ',' = ["ubuntu".toList] := by decide
    rw [hs] at hu
    simpa using hu
  subst hu1
  exact hout (by decide)

/-! ### The total -/

theorem userLoop_count (env : Env) (users : List Str) :
    ∀ st st1 : GaugeVec × Nat, userLoop env users st = .ok st1 →
      st1.2 = st.2 + pieceCount env users := by
  induction users with
  | nil =>
    intro st st1 h
    rw [userLoop_nil] at h
    cases h
    rfl
  | cons u rest ih =>
    intro st st1 h
    rw [userLoop_cons] at h
    obtain ⟨st0, hbody, hrest⟩ := Except.bind_eq_ok _ _ _ h
    have h1 := ih st0 st1 hrest
    rcases userBody_step env u st st0 hbody with ⟨hout, h0⟩ | ⟨hout, vec, _, h0⟩
    · subst h0
      simp only [pieceCount, hout, ne_eq, not_true_eq_false, if_false]
      omega
    · subst h0
      simp only [pieceCount, hout, ne_eq, not_false_eq_true, if_true]
      simp only at h1
      omega

/-- The total a completed scrape sets is the number of pieces of the users' outputs. -/
theorem scrape_sets_pieceCount (env : Env) (e e1 : Exporter) (h : scrape env e = .ok e1) :
    e1.totalCronJobs = pieceCount env (Split env.cronUsers ',') := by
  rw [scrape_eq] at h
  obtain ⟨st, hloop, h⟩ := Except.bind_eq_ok _ _ _ h
  cases h
  have := userLoop_count env _ _ st hloop
  simpa using this

/-! ### When the scrape panics -/

theorem cronEntry_short (env : Env) (user cron : Str) (h : (Fields cron).length < 5) :
    cronEntry env user cron = .error .sliceBounds := by
  have hs : splitCron cron = .error .sliceBounds := by
    simp only [splitCron, sliceTo, bind, Except.bind]
    rw [if_neg (by omega)]
  simp only [cronEntry, hs, bind, Except.bind]

theorem cronEntry_few_segments (env : Env) (user cron : Str) (h5 : 5 ≤ (Fields cron).length)
    (h : (Split (getCronScheduleFromPHP env (joinSp ((Fields cron).take 5))) '|').length < 3) :
    cronEntry env user cron = .error .indexOutOfRange := by
  have hi : index (Split (getCronScheduleFromPHP env (joinSp ((Fields cron).take 5))) '|')
      (((Split (getCronScheduleFromPHP env (joinSp ((Fields cron).take 5))) '|').length : Int) - 3)
      = .error .indexOutOfRange := by
    unfold index
    rw [if_pos (by omega)]
  simp only [cronEntry, splitCron_eq cron h5, hi, bind, Except.bind]

theorem cronLoop_error (env : Env) (user : Str) (crons : List Str)
    (h : ∃ cron ∈ crons, cron ≠ [] ∧ ∃ p, cronEntry env user cron = .error p) :
    ∀ vec, ∃ p, cronLoop env user crons vec = .error p := by
  induction crons with
  | nil =>
    obtain ⟨cron, hc, _⟩ := h
    simp at hc
  | cons c rest ih =>
    intro vec
    rw [cronLoop_cons]
    cases hb : cronBody env user c vec with
    | error p => exact ⟨p, rfl⟩
    | ok vec0 =>
      obtain ⟨cron, hc, hne, p, hp⟩ := h
      rcases List.mem_cons.1 hc with hc | hc
      · subst hc
        rw [cronBody_error env user cron vec p hne hp] at hb
        cases hb
      · exact ih ⟨cron, hc, hne, p, hp⟩ vec0

theorem userLoop_error (env : Env) (users : List Str)
    (h : ∃ u ∈ users, env.bash (crontabCmd (TrimSpace u)) ≠ [] ∧
      ∃ cron ∈ cronSliceOf (env.bash (crontabCmd (TrimSpace u))), cron ≠ [] ∧
        ∃ p, cronEntry env (TrimSpace u) cron = .error p) :
    ∀ st, ∃ p, userLoop env users st = .error p := by
  induction users with
  | nil =>
    obtain ⟨u, hu, _⟩ := h
    simp at hu
  | cons w rest ih =>
    intro st
    rw [userLoop_cons]
    cases hb : userBody env w st with
    | error p => exact ⟨p, rfl⟩
    | ok st0 =>
      obtain ⟨u, hu, hout, cron, hc, hne, p, hp⟩ := h
      rcases List.mem_cons.1 hu with hu | hu
      · subst hu
        rw [userBody_nonempty env u st hout] at hb
        obtain ⟨q, hq⟩ := cronLoop_error env (TrimSpace u) _ ⟨cron, hc, hne, p, hp⟩ st.1
        rw [hq] at hb
        cases hb
      · exact ih ⟨u, hu, hout, cron, hc, hne, p, hp⟩ st0

/-- A scrape panics as soon as one non-empty piece of one user's output has no entry: fewer than
five tokens, or an output of `CronSchedule.php` that cannot be indexed. -/
theorem scrape_panics (env : Env) (e : Exporter)
    (h : ∃ u ∈ Split env.cronUsers ',', env.bash (crontabCmd (TrimSpace u)) ≠ [] ∧
      ∃ cron ∈ cronSliceOf (env.bash (crontabCmd (TrimSpace u))), cron ≠ [] ∧
        ∃ p, cronEntry env (TrimSpace u) cron = .error p) :
    ∃ p, scrape env e = .error p := by
  obtain ⟨p, hp⟩ := userLoop_error env _ h (e.cronRunningStatus, 0)
  rw [scrape_eq, hp]
  exact ⟨p, rfl⟩

/-! ### Failing inputs -/

/-- C5, the code at a failing input. The crontab holds a `@daily` line (two tokens) before the
backup job. The scrape stops with the panic of `matches[:5]`; without that line it completes and
records the backup job. -/
theorem scrape_short_line_panics :
    scrape envDaily (NewCronExporter []) = .error .sliceBounds ∧
      scrape envBackup (NewCronExporter []) = .ok backupScraped := by
  constructor <;> decide

/-- C6, the code at a failing input. `CronSchedule.php` prints nothing for the pattern of the
backup job; `strings.Split` gives one segment and `cronrunsSlice[len(cronrunsSlice)-3]` panics. -/
theorem scrape_empty_php_panics :
    getCronScheduleFromPHP envNoPhp "*/15 9-17 * * 1-5".toList = [] ∧
      scrape envNoPhp (NewCronExporter []) = .error .indexOutOfRange := by
  constructor <;> decide

/-- C2, the code at a failing input. The one line of the crontab is cut at the `|` of its
command into two pieces; the first becomes an entry whose command is `ps aux`, the second has
two tokens and the scrape panics on it. -/
theorem scrape_cuts_line_at_pipe :
    cronSliceOf "*/5 * * * * ps aux | grep cron\n".toList
        = ["*/5 * * * * ps aux ".toList, " grep cron".toList] ∧
      (cronEntry envPipe "ubuntu".toList "*/5 * * * * ps aux ".toList).map
          (fun en => en.labels.command) = .ok "ps aux".toList ∧
      scrape envPipe (NewCronExporter []) = .error .sliceBounds := by
  refine ⟨by decide, by decide, by decide⟩

/-- C4, the code at a failing input. The crontab has one line, whose command text ends in `|`.
The scrape completes, records one entry, and sets the total to 2: it adds `len(cronSlice)`,
which counts the empty piece after the `|` as well. -/
theorem scrape_counts_empty_piece :
    cronSliceOf "0 4 * * * /usr/bin/backup.sh |\n".toList
        = ["0 4 * * * /usr/bin/backup.sh ".toList, []] ∧
      scrape envTrailingPipe (NewCronExporter [])
        = .ok { CronUser := [], totalCronJobs := 2,
                cronRunningStatus :=
                  [({ user := "ubuntu".toList, pattern := "0 4 * * *".toList,
                      readable := "At 04:00".toList, command := "/usr/bin/backup.sh".toList,
                      nextrun := "Tue Jan 2 04:00".toList,
                      previousrun := "Mon Jan 1 04:00".toList }, 0)] } := by
  constructor <;> decide

/-! ### Totality -/

theorem index_ok {α : Type} (xs : List α) (i : Int) (h0 : 0 ≤ i) (h1 : i.toNat < xs.length) :
    ∃ x, index xs i = .ok x := by
  unfold index
  rw [if_neg (by omega)]
  cases hx : xs.get? i.toNat with
  | none =>
    rw [List.get?_eq_none] at hx
    omega
  | some x => exact ⟨x, rfl⟩

theorem index_last {α : Type} (xs : List α) (last : α) (h : xs.getLast? = some last) :
    index xs ((xs.length : Int) - 1) = .ok last := by
  have hne : xs ≠ [] := by
    rintro rfl
    simp at h
  have hlen : 0 < xs.length := List.length_pos.2 hne
  unfold index
  rw [if_neg (by omega)]
  have hidx : ((xs.length : Int) - 1).toNat = xs.length - 1 := by omega
  rw [hidx, List.get?_eq_getElem?, ← List.getLast?_eq_getElem?, h]

theorem cronLastRunOf_ok (t : Str) (h : 3 ≤ (Split t ' ').length) :
    ∃ s, cronLastRunOf t = .ok s := by
  obtain ⟨a, ha⟩ := index_ok (Split t ' ') (((Split t ' ').length : Int) - 3) (by omega) (by omega)
  obtain ⟨b, hb⟩ := index_ok (Split t ' ') (((Split t ' ').length : Int) - 2) (by omega) (by omega)
  obtain ⟨c, hc⟩ := index_ok (Split t ' ') (((Split t ' ').length : Int) - 1) (by omega) (by omega)
  refine ⟨a ++ "  ".toList ++ b ++ " ".toList ++ c, ?_⟩
  simp only [cronLastRunOf, ha, hb, hc, bind, Except.bind, pure, Except.pure]

theorem cronEntry_ok (env : Env) (user cron : Str) (h5 : 5 ≤ (Fields cron).length)
    (hphp : ∀ pat cmd, splitCron cron = .ok (pat, cmd) →
      PhpUsable (getCronScheduleFromPHP env pat)) :
    ∃ en, cronEntry env user cron = .ok en := by
  have hsplit := splitCron_eq cron h5
  obtain ⟨h3, hlast⟩ := hphp _ _ hsplit
  generalize hpat : joinSp ((Fields cron).take 5) = pat at hsplit h3 hlast
  generalize hcmd : joinSp ((Fields cron).drop 5) = cmd at hsplit
  generalize hsl : Split (getCronScheduleFromPHP env pat) '|' = sl at h3 hlast
  obtain ⟨hr, hhr⟩ := index_ok sl ((sl.length : Int) - 3) (by omega) (by omega)
  obtain ⟨nx, hnx⟩ := index_ok sl ((sl.length : Int) - 2) (by omega) (by omega)
  have hne : sl ≠ [] := by
    rintro rfl
    simp at h3
  obtain ⟨lt, hlt⟩ : ∃ lt, sl.getLast? = some lt := ⟨sl.getLast hne, List.getLast?_eq_getLast _ hne⟩
  have hidx := index_last sl lt hlt
  obtain ⟨lr, hlr⟩ := cronLastRunOf_ok lt (hlast lt hlt)
  refine ⟨{ labels := { user := user, pattern := pat, readable := hr, command := cmd,
                        nextrun := nx, previousrun := lt },
            cronLastRun := lr }, ?_⟩
  simp only [cronEntry, hsplit, hsl, hhr, hnx, hidx, hlr, bind, Except.bind, pure, Except.pure]

theorem cronLoop_ok (env : Env) (user : Str) (crons : List Str)
    (h : ∀ cron ∈ crons, cron ≠ [] → ∃ en, cronEntry env user cron = .ok en) :
    ∀ vec, ∃ vec1, cronLoop env user crons vec = .ok vec1 := by
  induction crons with
  | nil => intro vec; exact ⟨vec, rfl⟩
  | cons c rest ih =>
    intro vec
    have ih1 := ih (fun cron hc => h cron (List.mem_cons_of_mem _ hc))
    rw [cronLoop_cons]
    by_cases hne : c = []
    · subst hne
      rw [cronBody_nil]
      exact ih1 vec
    · obtain ⟨en, hen⟩ := h c (by simp) hne
      rw [cronBody_ok env user c vec en hne hen]
      exact ih1 _

theorem userLoop_ok (env : Env) (users : List Str)
    (h : ∀ u ∈ users, ∀ cron ∈ cronSliceOf (env.bash (crontabCmd (TrimSpace u))), cron ≠ [] →
      ∃ en, cronEntry env (TrimSpace u) cron = .ok en) :
    ∀ st, ∃ st1, userLoop env users st = .ok st1 := by
  induction users with
  | nil => intro st; exact ⟨st, rfl⟩
  | cons u rest ih =>
    intro st
    have ih1 := ih (fun w hw => h w (List.mem_cons_of_mem _ hw))
    rw [userLoop_cons]
    by_cases hout : env.bash (crontabCmd (TrimSpace u)) = []
    · rw [userBody_empty env u st hout]
      exact ih1 st
    · rw [userBody_nonempty env u st hout]
      obtain ⟨vec, hvec⟩ := cronLoop_ok env (TrimSpace u) _ (h u (by simp)) st.1
      rw [hvec]
      exact ih1 _

/-- C10. The scrape is total under well-formed outputs of its collaborators: if every non-empty
piece of each configured user's trimmed crontab output (cut at newlines and at `|`) has at least
five tokens, and the output of `CronSchedule.php` for the pattern of each such piece has at least
three `|`-separated segments, the last with at least three parts separated by single blanks,
then no slice or index expression panics and `scrape` returns (a nil error). -/
theorem scrape_total (env : Env) (e : Exporter)
    (hlines : ∀ u ∈ Split env.cronUsers ',',
      ∀ cron ∈ cronSliceOf (env.bash (crontabCmd (TrimSpace u))), cron ≠ [] →
        5 ≤ (Fields cron).length)
    (hphp : ∀ u ∈ Split env.cronUsers ',',
      ∀ cron ∈ cronSliceOf (env.bash (crontabCmd (TrimSpace u))), cron ≠ [] →
        ∀ pat cmd, splitCron cron = .ok (pat, cmd) →
          PhpUsable (getCronScheduleFromPHP env pat)) :
    ∃ e1, scrape env e = .ok e1 := by
  obtain ⟨st, hst⟩ := userLoop_ok env (Split env.cronUsers ',')
    (fun u hu cron hc hne =>
      cronEntry_ok env (TrimSpace u) cron (hlines u hu cron hc hne) (hphp u hu cron hc hne))
    (e.cronRunningStatus, 0)
  rw [scrape_eq, hst]
  exact ⟨_, rfl⟩

theorem scrape_total_witness : ∃ e1, scrape envUniform (NewCronExporter []) = .ok e1 := by
  have hs : Split envUniform.cronUsers ',' = ["ubuntu".toList, "deploy".toList] := by decide
  have hout : ∀ u : Str, envUniform.bash (crontabCmd (TrimSpace u))
      = "*/15 9-17 * * 1-5 /usr/bin/backup.sh\n".toList := fun _ => rfl
  have hsl : cronSliceOf "*/15 9-17 * * 1-5 /usr/bin/backup.sh\n".toList
      = ["*/15 9-17 * * 1-5 /usr/bin/backup.sh".toList] := by decide
  refine scrape_total envUniform (NewCronExporter []) ?_ ?_
  · intro u _ cron hc _
    rw [hout, hsl] at hc
    rw [List.mem_singleton.1 hc]
    decide
  · intro u _ cron _ _ pat cmd _
    have hp : getCronScheduleFromPHP envUniform pat = backupRuns := rfl
    rw [hp]
    refine ⟨by decide, fun last hl => ?_⟩
    have hl1 : (Split backupRuns '|').getLast? = some "Mon Jan 1 09:45".toList := by decide
    rw [hl1] at hl
    cases hl
    decide

/-- C1. For every raw schedule line with at least six white-space-separated tokens, the split
of the line in `scrape` gives as pattern the first five tokens joined by single spaces and as
command the sixth and later tokens joined by single spaces, neither with a leading or a trailing
space. The amount and the kind of white space play no part: however the line is laid out, with
any white space before, between and after its tokens, the tokens the split works on are those
tokens. -/
theorem splitCron_six_tokens (cron : Str) (h : 6 ≤ (Fields cron).length) :
    splitCron cron = .ok (joinSp ((Fields cron).take 5), joinSp ((Fields cron).drop 5))
      ∧ NoEdgeSpace (joinSp ((Fields cron).take 5))
      ∧ NoEdgeSpace (joinSp ((Fields cron).drop 5))
      ∧ ∀ (lead : Str) (parts : List (Str × Str)) (last trail : Str),
          IsBlank lead → (∀ p ∈ parts, IsToken p.1 ∧ IsBlank p.2 ∧ p.2 ≠ []) →
          IsToken last → IsBlank trail → cron = assemble lead parts last trail →
          Fields cron = parts.map Prod.fst ++ [last] := by
  have htok := Fields_tokens cron
  refine ⟨splitCron_eq cron (by omega),
    joinSp_noEdge _ (fun t ht => htok t (List.mem_of_mem_take ht)),
    joinSp_noEdge _ (fun t ht => htok t (List.mem_of_mem_drop ht)), ?_⟩
  intro lead parts last trail hlead hparts hlast htrail hcron
  rw [hcron]
  exact Fields_assemble lead parts last trail hlead hparts hlast htrail

theorem splitCron_six_tokens_witness :
    6 ≤ (Fields backupLine).length
      ∧ splitCron backupLine = .ok ("*/15 9-17 * * 1-5".toList, "/usr/bin/backup.sh -v".toList) := by
  have h : 6 ≤ (Fields backupLine).length := by decide
  refine ⟨h, ?_⟩
  rw [(splitCron_six_tokens backupLine h).1]
  decide

end CronExporter
